import Mathlib

/-!
Verification development for the `testingview` backtesting engine.

This file gives a shallow embedding of the engine's core
(`testingview/strategybase.py` and `testingview/strategyrun.py`) and proves
the specification's testable properties about it.

Modelling conventions:
* pandas float columns become `List Rat`; columns that may hold NaN / None
  entries become `List (Option Rat)` with `none` for an undefined cell.
* A strategy's decision step (`set_indicators` followed by `next`) is a
  function of the causal prefix of bars it is allowed to see: the walk-forward
  loop `StrategyBase._sig` restricts `self._data` to `_d_f.iloc[:i+1]` before
  invoking it, so the pair of overridden methods is, observationally, a
  function `List Bar → Option Rat` of that prefix.
* Fallible pandas/numpy operations (out-of-range negative indexing, assigning
  a column of mismatched length, integer division by zero) are modelled with
  `Except`.
-/

namespace TestingView

/-- Equality of fallible results is decidable (needed to evaluate the model
on concrete inputs). -/
instance {ε α : Type} [DecidableEq ε] [DecidableEq α] : DecidableEq (Except ε α) :=
  fun x y =>
    match x, y with
    | .error a, .error b =>
      if h : a = b then isTrue (by rw [h])
      else isFalse (fun hh => by cases hh; exact h rfl)
    | .ok a, .ok b =>
      if h : a = b then isTrue (by rw [h])
      else isFalse (fun hh => by cases hh; exact h rfl)
    | .error _, .ok _ => isFalse (fun hh => by cases hh)
    | .ok _, .error _ => isFalse (fun hh => by cases hh)

/-- One row of the validated OHLCV table: timestamp (in days, the index is a
strictly ascending `DatetimeIndex`) plus the five price/volume fields. -/
structure Bar where
  time : Int
  op : Rat
  hi : Rat
  lo : Rat
  close : Rat
  volume : Rat
deriving DecidableEq

/-- A per-bar signal entry: `None` (no action) or the numeric value returned by
the strategy's `next()` (`1`, `-1`, `0` for long/short/offset). -/
abbrev Action := Option Rat

/-- A strategy's observable behaviour: its decision for the causal prefix of
bars currently visible as `self._data`. -/
abbrev Strategy := List Bar → Action

/-- `StrategyBase._sig` (strategybase.py:187-196): start from
`siglist = [None, None]`, and for `i in range(2, length)` restrict the visible
data to the prefix `_d_f.iloc[:i+1]`, re-run `set_indicators`, and append the
value of `next()`. -/
def sig (strat : Strategy) (bars : List Bar) : List Action :=
  [none, none] ++ (List.range' 2 (bars.length - 2)).map (fun i => strat (bars.take (i + 1)))

/-- Python's negative indexing `xs[-k]` on an array (used with `k ∈ {1, 2}`):
an `IndexError` when `k` exceeds the length, the element `xs[len - k]`
otherwise. -/
def negIdx (xs : List Rat) (k : Nat) : Except Unit Rat :=
  if xs.length < k then .error () else .ok (xs.getD (xs.length - k) 0)

/-- `StrategyBase.crossover` (strategybase.py:133-143): returns `True` when
`series1[-2] < series2[-2] and series1[-1] > series2[-1]`, and falls off the
end of the function (returning `None`) otherwise; `and` short-circuits, so the
`[-1]` lookups happen only when the first comparison holds. -/
def crossover (series1 series2 : List Rat) : Except Unit (Option Bool) :=
  match negIdx series1 2, negIdx series2 2 with
  | .error e, _ => .error e
  | .ok _, .error e => .error e
  | .ok a2, .ok b2 =>
    if a2 < b2 then
      match negIdx series1 1, negIdx series2 1 with
      | .error e, _ => .error e
      | .ok _, .error e => .error e
      | .ok a1, .ok b1 => if b1 < a1 then .ok (some true) else .ok none
    else .ok none

/-- `close.diff()`: first entry NaN, then consecutive differences. -/
def diffCol (closes : List Rat) : List (Option Rat) :=
  match closes with
  | [] => []
  | _ :: rest => none :: List.zipWith (fun cur prev => some (cur - prev)) rest closes

/-- `fillna(method='ffill')` on an object column: carry the last defined value
forward (the carry starts as NaN). -/
def ffill (carry : Option Rat) : List Action → List Action
  | [] => []
  | a :: rest =>
    match a with
    | some v => some v :: ffill (some v) rest
    | none => carry :: ffill carry rest

/-- `shift()` on an Option column: drop the last value and prepend NaN. -/
def shiftCol (xs : List Action) : List Action :=
  (none :: xs).dropLast

/-- `shift()` applied to a fully defined (float) column. -/
def shiftR (xs : List Rat) : List (Option Rat) :=
  (none :: xs.map some).dropLast

/-- `fillna(0)`. -/
def fillna0 (xs : List Action) : List Rat :=
  xs.map (fun a => a.getD 0)

/-- The position column (strategyrun.py:40):
`signal.fillna(method='ffill').shift().fillna(0)`. -/
def posList (acts : List Action) : List Rat :=
  fillna0 (shiftCol (ffill none acts))

/-- `abs(pos - pos.shift()).fillna(0)` (strategyrun.py:43). -/
def feeFactor (pos : List Rat) : List Rat :=
  List.zipWith (fun cur prev => ((prev.map (fun p => |cur - p|)).getD 0)) pos (shiftR pos)

/-- Running sum (`cumsum`), carrying the accumulator. -/
def cumsum (acc : Rat) : List Rat → List Rat
  | [] => []
  | x :: xs => (acc + x) :: cumsum (acc + x) xs

/-- The per-bar accounting columns computed by `BacktestRun._broker`
(strategyrun.py:34-50). -/
structure Ledger where
  change : List (Option Rat)
  signal : List Action
  pos : List Rat
  tradingPnl : List (Option Rat)
  fee : List Rat
  netpnl : List Rat
  cumpnl : List Rat
  capital : List Rat
  outofmoney : List Bool
deriving DecidableEq

/-- `trading_pnl = change * pos * size` (strategyrun.py:41); a NaN in
`change` propagates. -/
def tradingPnlCol (closes : List Rat) (acts : List Action) (size : Rat) :
    List (Option Rat) :=
  List.zipWith (fun ch p => ch.map (fun c => c * p * size)) (diffCol closes) (posList acts)

/-- `fee = close * size * amount * comm * abs(pos - pos.shift()).fillna(0)`
(strategyrun.py:42-43). -/
def feeCol (closes : List Rat) (acts : List Action) (size comm amount : Rat) : List Rat :=
  List.zipWith (fun c fct => c * size * amount * comm * fct) closes
    (feeFactor (posList acts))

/-- `netpnl = trading_pnl - fee`, then `netpnl.fillna(0)` in place
(strategyrun.py:44-45); the only NaNs come through `trading_pnl`. -/
def netpnlCol (closes : List Rat) (acts : List Action) (size comm amount : Rat) :
    List Rat :=
  List.zipWith (fun tp f => match tp with | none => 0 | some v => v - f)
    (tradingPnlCol closes acts size) (feeCol closes acts size comm amount)

/-- `cumpnl = netpnl.cumsum()` (strategyrun.py:46). -/
def cumpnlCol (closes : List Rat) (acts : List Action) (size comm amount : Rat) :
    List Rat :=
  cumsum 0 (netpnlCol closes acts size comm amount)

/-- `capital = cumpnl + cash` (strategyrun.py:47). -/
def capitalCol (closes : List Rat) (acts : List Action) (cash size comm amount : Rat) :
    List Rat :=
  (cumpnlCol closes acts size comm amount).map (fun x => x + cash)

/-- `outofmoney = (capital.shift() <= close * size * amount + fee) & (fee != 0)`
(strategyrun.py:48-50); a NaN on the left of `<=` compares as `False`. -/
def outofmoneyCol (closes : List Rat) (acts : List Action) (cash size comm amount : Rat) :
    List Bool :=
  List.zipWith
    (fun cprev cf =>
      (match cprev with
       | none => false
       | some c => decide (c ≤ cf.1 * size * amount + cf.2)) && decide (cf.2 ≠ 0))
    (shiftR (capitalCol closes acts cash size comm amount))
    (closes.zip (feeCol closes acts size comm amount))

/-- The numeric core of `BacktestRun._broker` (strategyrun.py:36-50), one
named column per source assignment, assembled in source order: `change`,
`signal` (the `_sig` output, a parameter here — see `brokerStep`), `pos`,
`trading_pnl`, `fee`, `netpnl`, `cumpnl`, `capital`, `outofmoney`. -/
def settle (closes : List Rat) (acts : List Action) (cash size comm amount : Rat) : Ledger :=
  { change := diffCol closes,
    signal := acts,
    pos := posList acts,
    tradingPnl := tradingPnlCol closes acts size,
    fee := feeCol closes acts size comm amount,
    netpnl := netpnlCol closes acts size comm amount,
    cumpnl := cumpnlCol closes acts size comm amount,
    capital := capitalCol closes acts cash size comm amount,
    outofmoney := outofmoneyCol closes acts cash size comm amount }

/-- A pandas column value: floats with possible NaNs, or booleans. -/
inductive Col where
  | nums : List (Option Rat) → Col
  | bools : List Bool → Col
deriving DecidableEq

/-- The mutable working DataFrame: the validated OHLCV bars plus whatever
named columns have been assigned onto it (`df['name'] = ...`). `BacktestRun`
aliases the very frame the strategy holds (strategyrun.py:29 stores
`strategy.data` without copying), so the post-state of `_broker` is the
post-state of the shared object. -/
structure Frame where
  bars : List Bar
  extra : List (String × Col)
deriving DecidableEq

/-- `df['name'] = value` on the extra columns: replace every existing column
of that name in place, or append a new column at the end. -/
def setCol (cols : List (String × Col)) (name : String) (v : Col) : List (String × Col) :=
  if cols.any (fun p => p.1 = name) then
    cols.map (fun p => if p.1 = name then (name, v) else p)
  else cols ++ [(name, v)]

/-- Column lookup by name. -/
def getCol (f : Frame) (name : String) : Option Col :=
  (f.extra.find? (fun p => decide (p.1 = name))).map (fun p => p.2)

/-- The column names `_broker` reads while it computes (the five OHLCV
columns live in `Frame.bars` here) together with the ledger columns it
assigns.  The model assumes no indicator display name collides with these:
in the source such a collision would overwrite a column mid-computation. -/
def reservedCols : List String :=
  ["open", "high", "low", "close", "volume", "change", "signal", "pos",
   "trading_pnl", "fee", "netpnl", "cumpnl", "capital", "outofmoney"]

/-- The sequence of column writes `_broker` performs, in source order
(strategyrun.py:36-50): `change`, `signal`, the recorded indicator frames
(lines 38-39), then the accounting columns. -/
def brokerWrites (L : Ledger) (inds : List (String × List (Option Rat))) :
    List (String × Col) :=
  [("change", Col.nums L.change), ("signal", Col.nums L.signal)]
    ++ inds.map (fun p => (p.1, Col.nums p.2))
    ++ [("pos", Col.nums (L.pos.map some)),
        ("trading_pnl", Col.nums L.tradingPnl),
        ("fee", Col.nums (L.fee.map some)),
        ("netpnl", Col.nums (L.netpnl.map some)),
        ("cumpnl", Col.nums (L.cumpnl.map some)),
        ("capital", Col.nums (L.capital.map some)),
        ("outofmoney", Col.bools L.outofmoney)]

/-- Perform a sequence of column assignments, first to last. -/
def applyWrites : List (String × Col) → List (String × Col) → List (String × Col)
  | [], cols => cols
  | w :: ws, cols => applyWrites ws (setCol cols w.1 w.2)

/-- `BacktestRun._broker` as a transformation of the shared working frame:
recompute the signal list on the frame's bars, then assign all ledger columns
onto the frame.  Assigning the `signal` column raises a pandas `ValueError`
when the signal list's length differs from the table's (which happens exactly
for tables of fewer than two rows, since `_sig` always emits at least the two
leading `None`s). -/
def brokerStep (strat : Strategy) (inds : List (String × List (Option Rat)))
    (cash size comm amount : Rat) (df : Frame) : Except Unit Frame :=
  let acts := sig strat df.bars
  if acts.length ≠ df.bars.length then .error ()
  else
    let L := settle (df.bars.map Bar.close) acts cash size comm amount
    .ok { bars := df.bars, extra := applyWrites (brokerWrites L inds) df.extra }

/-- `np.maximum.accumulate` tail: running maxima with accumulator. -/
def runMaxAux (acc : Rat) : List Rat → List Rat
  | [] => []
  | x :: xs => max acc x :: runMaxAux (max acc x) xs

/-- `np.maximum.accumulate`. -/
def runningMax : List Rat → List Rat
  | [] => []
  | x :: xs => x :: runMaxAux x xs

/-- One entry of `1 - capital / np.maximum.accumulate(capital)`
(strategyrun.py:86).  In float arithmetic `0/0` is NaN (an undefined entry);
a nonzero numerator over zero would overflow to a signed infinity, which this
rational model cannot represent — that combination requires the running peak
to be exactly `0` while capital is negative, and no claim's statement reaches
it (rationals fall back to the `c / 0 = 0` convention there). -/
def ddEntry (c m : Rat) : Option Rat :=
  if m = 0 ∧ c = 0 then none else some (1 - c / m)

/-- One step of a NaN-skipping maximum. -/
def maxStepO (acc x : Option Rat) : Option Rat :=
  match acc, x with
  | none, x => x
  | some a, none => some a
  | some a, some b => some (max a b)

/-- `Series.max()`: the maximum of the defined entries, NaN (i.e. `none`)
when there is none (`skipna` is the default). -/
def listMaxO (l : List (Option Rat)) : Option Rat :=
  l.foldl maxStepO none

/-- `-np.nan_to_num(dd.max()) * 100` where
`dd = 1 - capital / np.maximum.accumulate(capital)` (strategyrun.py:86-87). -/
def maxDrawdownPct (capital : List Rat) : Rat :=
  -((listMaxO (List.zipWith ddEntry capital (runningMax capital))).getD 0) * 100

/-- Errors that abort `BacktestRun.run`: the pandas length mismatch when
assigning the signal column, and the `ZeroDivisionError` in the exposure-time
computation when the table spans zero whole days. -/
inductive RunErr where
  | lengthMismatch
  | zeroDuration
deriving DecidableEq

/-- The summary `pd.Series` built by `BacktestRun.run` (strategyrun.py:74-88),
field by field in source order. -/
structure Report where
  valid : Bool
  start : Int
  stop : Int
  durationDays : Int
  exposurePct : Rat
  capitalFinal : Rat
  capitalPeak : Rat
  returnPct : Rat
  drawdownPct : Rat
deriving DecidableEq

/-- `BacktestRun.run` (strategyrun.py:52-90): parameter defaults are
`cash=50000, size=100, comm=0, amount=1`; it settles the broker columns and
aggregates the report.  `Duration.days` is the whole-day span of the index;
the exposure-time line divides by it, raising `ZeroDivisionError` when it is
zero.  `capital[0]` and `capital[-1]` are positional lookups. -/
def runM (strat : Strategy) (bars : List Bar) (cash size comm amount : Rat) :
    Except RunErr (Ledger × Report) :=
  let acts := sig strat bars
  if acts.length ≠ bars.length then .error .lengthMismatch
  else
    let L := settle (bars.map Bar.close) acts cash size comm amount
    let start := ((bars.map Bar.time).headD 0)
    let stop := ((bars.map Bar.time).getLastD 0)
    let dur := stop - start
    if dur = 0 then .error .zeroDuration
    else
      let flats := (L.pos.filter (fun p => decide (p = 0))).length
      .ok (L,
        { valid := L.outofmoney.all (fun b => !b),
          start := start, stop := stop, durationDays := dur,
          exposurePct := (((dur : Rat) - (flats : Rat)) / (dur : Rat)) * 100,
          capitalFinal := L.capital.getLastD 0,
          capitalPeak := L.capital.foldl max (L.capital.headD 0),
          returnPct :=
            (L.capital.getLastD 0 - L.capital.headD 0) / L.capital.headD 0 * 100,
          drawdownPct := maxDrawdownPct L.capital })

/-- The value an indicator function hands back to `StrategyBase.ind`
(strategybase.py:96-117), as far as the registry's shape handling can
distinguish: a pandas DataFrame (rows × columns, assumed rectangular), a 1-D
or rectangular 2-D array-like, or something `np.asarray` cannot turn into an
array (including `None`). -/
inductive PyVal where
  | frame : List (List Rat) → PyVal
  | arr1 : List Rat → PyVal
  | arr2 : List (List Rat) → PyVal
  | noneV : PyVal
deriving DecidableEq

/-- Lines 103-111: a DataFrame result is replaced by `value.values.T`; other
values pass through `np.asarray` (already arrays here) or fail to `None`. -/
def toArray : PyVal → PyVal
  | .frame rows => .arr2 rows.transpose
  | v => v

/-- `is_arraylike` (line 113). -/
def isArr : PyVal → Bool
  | .arr1 _ => true
  | .arr2 _ => true
  | _ => false

/-- `value.shape` (numpy shape; a rectangular 2-D array's second dimension is
the common row length). -/
def shapeOf : PyVal → List Nat
  | .arr1 xs => [xs.length]
  | .arr2 xss => [xss.length, (xss.headD []).length]
  | _ => []

/-- `np.argmax(value.shape) == 0` (line 116): the first dimension attains the
maximum. -/
def argmaxIsZero (s : List Nat) : Bool :=
  s.all (fun d => d ≤ s.headD 0)

/-- `value.T` (line 117). -/
def flipT : PyVal → PyVal
  | .arr1 xs => .arr1 xs
  | .arr2 xss => .arr2 xss.transpose
  | v => v

/-- `len(value)`: the first dimension. -/
def lenOf : PyVal → Nat
  | .arr1 xs => xs.length
  | .arr2 xss => xss.length
  | _ => 0

/-- The exceptions `StrategyBase.ind` raises: the `RuntimeError` wrapping an
indicator computation failure (line 100), and the shape `ValueError`
(lines 121-124) whose message interpolates the expected data shape
(`self._data.close.shape`, i.e. the current table length) and the returned
value's shape after orientation normalization. -/
inductive IndError where
  | runtime : String → String → IndError
  | shape : Nat → String → List Nat → IndError
deriving DecidableEq

/-- `StrategyBase.ind` (strategybase.py:96-131) after the cosmetic
display-name derivation (lines 75-94, passed in as `name`): run the indicator
function (`fres` is its outcome), normalize orientation, validate the final
dimension against the current table length `n`, and on success return the
value, recording it in `self._indicators` only when its leading dimension
equals the length `nOrig` of the original full table (`self.__data`).
Raising means the registry `reg` is left untouched. -/
def ind (n nOrig : Nat) (name : String) (fres : Except String PyVal)
    (reg : List (String × PyVal)) : Except IndError (PyVal × List (String × PyVal)) :=
  match fres with
  | .error e => .error (.runtime name e)
  | .ok v0 =>
    let v1 := toArray v0
    let v2 := if isArr v1 && argmaxIsZero (shapeOf v1) then flipT v1 else v1
    if ¬ isArr v1 ∨ (shapeOf v2).getLastD 0 ≠ n then
      .error (.shape n name (shapeOf v2))
    else
      .ok (v2, if lenOf v2 = nOrig then reg ++ [(name, v2)] else reg)

/-- A concrete bar whose five price/volume fields are flat at `c`, used to
instantiate theorems on explicit tables. -/
def flatBar (t : Int) (c : Rat) : Bar :=
  { time := t, op := c, hi := c, lo := c, close := c, volume := 1 }

/-- Every entry of `cols` whose key is `n` is exactly `(n, v)`. -/
def AllEq (cols : List (String × Col)) (n : String) (v : Col) : Prop :=
  ∀ p ∈ cols, p.1 = n → p = (n, v)

/-- Some entry of `cols` has key `n`. -/
def HasKey (cols : List (String × Col)) (n : String) : Prop :=
  ∃ p ∈ cols, p.1 = n

/-- Whether a fallible run completed. -/
def isOkE {ε α : Type} : Except ε α → Bool
  | .ok _ => true
  | .error _ => false

/-- The Ledger of a completed run (a run that raised has no ledger; a
placeholder empty ledger stands in so the extractor is total). -/
def ledgerOf (r : Except RunErr (Ledger × Report)) : Ledger :=
  match r with
  | .ok (L, _) => L
  | .error _ => settle [] [] 0 0 0 0

/-- The Report of a completed run (with a placeholder for a raised run). -/
def reportOf (r : Except RunErr (Ledger × Report)) : Report :=
  match r with
  | .ok (_, R) => R
  | .error _ =>
    { valid := true, start := 0, stop := 0, durationDays := 0, exposurePct := 0,
      capitalFinal := 0, capitalPeak := 0, returnPct := 0, drawdownPct := 0 }

/-- A concrete fresh two-bar working frame. -/
def demoFrame : Frame :=
  { bars := [flatBar 0 1, flatBar 1 2], extra := [] }

/-- The frame `demoFrame` becomes after one `_broker` pass with a
never-acting strategy, no recorded indicators, `cash = 0`, `size = 1`,
`comm = 0`, `amount = 1`. -/
def demoSettled : Frame :=
  { bars := [flatBar 0 1, flatBar 1 2],
    extra := applyWrites
      (brokerWrites
        (settle ([flatBar 0 1, flatBar 1 2].map Bar.close)
          (sig (fun _ => none) [flatBar 0 1, flatBar 1 2]) 0 1 0 1) [])
      [] }

/-! ## Helper lemmas -/

theorem runMaxAux_of_chain :
    ∀ (l : List Rat) (a : Rat), List.Chain' (· ≤ ·) (a :: l) → runMaxAux a l = l := by
  intro l
  induction l with
  | nil => intro a _; rfl
  | cons x xs ih =>
    intro a h
    rw [List.chain'_cons] at h
    simp only [runMaxAux, max_eq_right h.1]
    rw [ih x h.2]

theorem runningMax_of_chain (l : List Rat) (h : List.Chain' (· ≤ ·) l) :
    runningMax l = l := by
  cases l with
  | nil => rfl
  | cons a t => simp only [runningMax]; rw [runMaxAux_of_chain t a h]

theorem foldl_maxStepO_zero :
    ∀ (l : List (Option Rat)) (acc : Option Rat),
      (acc = none ∨ acc = some 0) → (∀ x ∈ l, x = none ∨ x = some 0) →
      (l.foldl maxStepO acc = none ∨ l.foldl maxStepO acc = some 0) := by
  intro l
  induction l with
  | nil => intro acc hacc _; simpa using hacc
  | cons x xs ih =>
    intro acc hacc hall
    have hx : x = none ∨ x = some 0 := hall x (by simp)
    have hstep : maxStepO acc x = none ∨ maxStepO acc x = some 0 := by
      rcases hacc with h1 | h1 <;> rcases hx with h2 | h2 <;>
        simp [maxStepO, h1, h2]
    exact ih (maxStepO acc x) hstep (fun y hy => hall y (by simp [hy]))

theorem foldl_maxStepO_none :
    ∀ (l : List (Option Rat)), (∀ x ∈ l, x = none) → l.foldl maxStepO none = none := by
  intro l
  induction l with
  | nil => intro _; rfl
  | cons x xs ih =>
    intro hall
    have hx : x = none := hall x (by simp)
    simp only [List.foldl_cons, hx, maxStepO]
    exact ih (fun y hy => hall y (by simp [hy]))

theorem ffill_length : ∀ (c : Option Rat) (xs : List Action), (ffill c xs).length = xs.length := by
  intro c xs
  induction xs generalizing c with
  | nil => rfl
  | cons x rest ih => cases x <;> simp [ffill, ih]

theorem ffill_getElem? :
    ∀ (xs : List Action) (c : Option Rat) (j : Nat),
      (ffill c xs)[j]? =
        if j < xs.length then some ((xs.take (j + 1)).foldl (fun acc a => a.or acc) c)
        else none := by
  intro xs
  induction xs with
  | nil => intro c j; simp [ffill]
  | cons x rest ih =>
    intro c j
    cases x with
    | some v =>
      cases j with
      | zero => simp [ffill, Option.or]
      | succ k =>
        simp only [ffill, List.getElem?_cons_succ, ih (some v) k, List.take_succ_cons,
          List.foldl_cons, List.length_cons]
        have : (some v).or c = some v := rfl
        rw [this]
        simp [Nat.succ_lt_succ_iff]
    | none =>
      cases j with
      | zero => simp [ffill, Option.or]
      | succ k =>
        simp only [ffill, List.getElem?_cons_succ, ih c k, List.take_succ_cons,
          List.foldl_cons, List.length_cons]
        have : (none : Option Rat).or c = c := rfl
        rw [this]
        simp [Nat.succ_lt_succ_iff]

theorem shiftCol_length (xs : List Action) : (shiftCol xs).length = xs.length := by
  simp [shiftCol]

theorem shiftR_length (xs : List Rat) : (shiftR xs).length = xs.length := by
  simp [shiftR]

theorem fillna0_length (xs : List Action) : (fillna0 xs).length = xs.length := by
  simp [fillna0]

theorem posList_length (acts : List Action) : (posList acts).length = acts.length := by
  rw [posList, fillna0_length, shiftCol_length, ffill_length]

theorem diffCol_length (closes : List Rat) : (diffCol closes).length = closes.length := by
  cases closes with
  | nil => rfl
  | cons c rest => simp [diffCol, List.length_zipWith]

theorem feeFactor_length (pos : List Rat) : (feeFactor pos).length = pos.length := by
  simp [feeFactor, List.length_zipWith, shiftR_length]

theorem cumsum_length : ∀ (l : List Rat) (acc : Rat), (cumsum acc l).length = l.length := by
  intro l
  induction l with
  | nil => intro acc; rfl
  | cons x xs ih => intro acc; simp [cumsum, ih]

theorem posList_getElem? (xs : List Action) (j : Nat) :
    (posList xs)[j]? =
      if j < xs.length then
        some (((xs.take j).foldl (fun acc a => a.or acc) none).getD 0)
      else none := by
  rw [posList, fillna0, List.getElem?_map, shiftCol, List.dropLast_eq_take]
  simp only [List.length_cons, Nat.add_sub_cancel, ffill_length, List.getElem?_take]
  by_cases hj : j < xs.length
  · rw [if_pos hj, if_pos hj]
    cases j with
    | zero => simp
    | succ k =>
      rw [List.getElem?_cons_succ, ffill_getElem? xs none k, if_pos (by omega)]
      simp [List.take_succ_cons]
  · rw [if_neg hj, if_neg hj]
    rfl

theorem foldl_or_getLast :
    ∀ (l : List Action) (c : Option Rat),
      l.foldl (fun acc a => a.or acc) c = (l.filterMap id).getLast?.or c := by
  intro l
  induction l with
  | nil => intro c; simp [Option.or]
  | cons a l ih =>
    intro c
    cases a with
    | some v =>
      rw [List.foldl_cons]
      have h1 : (some v).or c = some v := rfl
      rw [h1, ih (some v)]
      simp only [List.filterMap_cons, id]
      cases hfl : (l.filterMap id).getLast? with
      | none =>
        rw [List.getLast?_eq_getElem?] at hfl ⊢
        simp only [List.length_cons]
        rcases List.eq_nil_or_concat (l.filterMap id) with hnil | ⟨ys, y, hy⟩
        · rw [hnil]
          simp [Option.or]
        · rw [hy] at hfl
          simp at hfl
      | some w =>
        rcases List.eq_nil_or_concat (l.filterMap id) with hnil | ⟨ys, y, hy⟩
        · rw [hnil] at hfl; simp at hfl
        · simp only [List.concat_eq_append] at hy
          rw [hy] at hfl ⊢
          rw [List.getLast?_concat] at hfl
          have hyw : y = w := by injection hfl
          subst hyw
          have h2 : (v :: (ys ++ [y])).getLast? = some y := by
            rw [show v :: (ys ++ [y]) = (v :: ys) ++ [y] from rfl, List.getLast?_concat]
          rw [h2]
          rfl
    | none =>
      rw [List.foldl_cons]
      have h1 : (none : Option Rat).or c = c := rfl
      rw [h1, ih c]
      simp [List.filterMap_cons]

theorem cumsum_getElem? :
    ∀ (l : List Rat) (acc : Rat) (t : Nat),
      (cumsum acc l)[t]? =
        if t < l.length then some (acc + (l.take (t + 1)).sum) else none := by
  intro l
  induction l with
  | nil => intro acc t; simp [cumsum]
  | cons x xs ih =>
    intro acc t
    cases t with
    | zero => simp [cumsum]
    | succ k =>
      simp only [cumsum, List.getElem?_cons_succ, ih (acc + x) k, List.take_succ_cons,
        List.sum_cons, List.length_cons]
      by_cases hk : k < xs.length
      · rw [if_pos hk, if_pos (by omega)]
        ring_nf
      · rw [if_neg hk, if_neg (by omega)]

theorem zipWith_all_zero {α β : Type} (f : α → β → Rat) (hf : ∀ a b, f a b = 0) :
    ∀ (l1 : List α) (l2 : List β), ∀ x ∈ List.zipWith f l1 l2, x = 0 := by
  intro l1
  induction l1 with
  | nil => intro l2 x hx; simp at hx
  | cons a l1 ih =>
    intro l2 x hx
    cases l2 with
    | nil => simp at hx
    | cons b l2 =>
      rw [List.zipWith_cons_cons, List.mem_cons] at hx
      rcases hx with hx | hx
      · rw [hx, hf]
      · exact ih l2 x hx

theorem netpnlCol_zero_comm (closes : List Rat) (acts : List Action) (size amount : Rat) :
    netpnlCol closes acts size 0 amount =
      List.zipWith (fun ch p => ch.getD 0 * p * size) (diffCol closes) (posList acts) := by
  apply List.ext_getElem?
  intro i
  rw [netpnlCol, tradingPnlCol, feeCol]
  simp only [List.getElem?_zipWith]
  by_cases hi1 : i < closes.length
  · by_cases hi2 : i < acts.length
    · have hd1 : i < (diffCol closes).length := by rw [diffCol_length]; exact hi1
      have hd2 : i < (posList acts).length := by rw [posList_length]; exact hi2
      have hd3 : i < (feeFactor (posList acts)).length := by
        rw [feeFactor_length, posList_length]; exact hi2
      rw [List.getElem?_eq_getElem hd1, List.getElem?_eq_getElem hd2,
        List.getElem?_eq_getElem hi1, List.getElem?_eq_getElem hd3]
      cases hA : (diffCol closes)[i] with
      | none => simp
      | some v => simp
    · rw [List.getElem?_eq_none (show (posList acts).length ≤ i by
          rw [posList_length]; omega),
        List.getElem?_eq_none (show (feeFactor (posList acts)).length ≤ i by
          rw [feeFactor_length, posList_length]; omega)]
      cases hch : (diffCol closes)[i]? <;> cases hc : closes[i]? <;> rfl
  · rw [List.getElem?_eq_none (show (diffCol closes).length ≤ i by
        rw [diffCol_length]; omega),
      List.getElem?_eq_none (show closes.length ≤ i by omega)]

theorem sig_length (strat : Strategy) (bars : List Bar) :
    (sig strat bars).length = 2 + (bars.length - 2) := by
  simp only [sig, List.length_append, List.length_map, List.length_range',
    List.length_cons, List.length_nil]

theorem sig_agree (strat : Strategy) (A B : List Bar) (t : Nat)
    (h : A.take (t + 1) = B.take (t + 1)) :
    ∀ j, j ≤ t → (sig strat A)[j]? = (sig strat B)[j]? := by
  have hmin : min (t + 1) A.length = min (t + 1) B.length := by
    have hc := congrArg List.length h
    simpa [List.length_take] using hc
  intro j hj
  match j with
  | 0 => simp [sig]
  | 1 => simp [sig]
  | k + 2 =>
    show (none :: none :: (List.range' 2 (A.length - 2)).map
        (fun i => strat (A.take (i + 1))))[k + 2]? = _
    rw [List.getElem?_cons_succ, List.getElem?_cons_succ]
    show _ = (none :: none :: (List.range' 2 (B.length - 2)).map
        (fun i => strat (B.take (i + 1))))[k + 2]?
    rw [List.getElem?_cons_succ, List.getElem?_cons_succ]
    rw [List.getElem?_map, List.getElem?_map]
    by_cases hk : k < A.length - 2
    · have hk' : k < B.length - 2 := by omega
      rw [List.getElem?_range' 2 1 hk, List.getElem?_range' 2 1 hk']
      simp only [Option.map_some']
      have h3 : 2 + 1 * k + 1 = k + 3 := by ring
      rw [h3]
      have hmn : min (k + 3) (t + 1) = k + 3 := by omega
      have e1 : (A.take (t + 1)).take (k + 3) = A.take (k + 3) := by
        rw [List.take_take, hmn]
      have e2 : (B.take (t + 1)).take (k + 3) = B.take (k + 3) := by
        rw [List.take_take, hmn]
      rw [show A.take (k + 3) = B.take (k + 3) by rw [← e1, ← e2, h]]
    · have hk' : ¬ k < B.length - 2 := by omega
      rw [List.getElem?_eq_none (by simp [List.length_range']; omega),
        List.getElem?_eq_none (by simp [List.length_range']; omega)]
      rfl

theorem shiftR_getElem0 (xs : List Rat) (h : xs ≠ []) : (shiftR xs)[0]? = some none := by
  rw [shiftR, List.dropLast_eq_take]
  simp only [List.length_cons, List.length_map, Nat.add_sub_cancel]
  rw [List.getElem?_take, if_pos (List.length_pos.2 h)]
  simp

theorem posList_getElem0 (acts : List Action) (h : acts ≠ []) :
    (posList acts)[0]? = some 0 := by
  rw [posList_getElem?, if_pos (List.length_pos.2 h)]
  rfl

theorem netpnlCol_getElem0 (closes : List Rat) (acts : List Action)
    (size comm amount : Rat) (h1 : closes ≠ []) (h2 : acts ≠ []) :
    (netpnlCol closes acts size comm amount)[0]? = some 0 := by
  have htp : (tradingPnlCol closes acts size)[0]? = some none := by
    obtain ⟨c, rest, rfl⟩ := List.exists_cons_of_ne_nil h1
    rw [tradingPnlCol]
    simp only [List.getElem?_zipWith]
    rw [show (diffCol (c :: rest))[0]? = some none from by simp [diffCol]]
    rw [posList_getElem0 acts h2]
    rfl
  have hpos : posList acts ≠ [] := by
    rw [← List.length_pos, posList_length]
    exact List.length_pos.2 h2
  have hfct : (feeFactor (posList acts))[0]? = some 0 := by
    rw [feeFactor]
    simp only [List.getElem?_zipWith]
    rw [posList_getElem0 acts h2, shiftR_getElem0 _ hpos]
    rfl
  obtain ⟨c, rest, rfl⟩ := List.exists_cons_of_ne_nil h1
  have hfee : (feeCol (c :: rest) acts size comm amount)[0]? =
      some (c * size * amount * comm * 0) := by
    rw [feeCol]
    simp only [List.getElem?_zipWith]
    rw [show ((c :: rest) : List Rat)[0]? = some c from by simp, hfct]
  rw [netpnlCol]
  simp only [List.getElem?_zipWith]
  rw [htp, hfee]

theorem netpnlCol_length (closes : List Rat) (acts : List Action)
    (size comm amount : Rat) :
    (netpnlCol closes acts size comm amount).length = min closes.length acts.length := by
  simp only [netpnlCol, tradingPnlCol, feeCol, List.length_zipWith, diffCol_length,
    posList_length, feeFactor_length]
  omega

theorem capitalCol_getElem0 (closes : List Rat) (acts : List Action)
    (cash size comm amount : Rat) (h1 : closes ≠ []) (h2 : acts ≠ []) :
    (capitalCol closes acts cash size comm amount)[0]? = some cash := by
  rw [capitalCol, List.getElem?_map, cumpnlCol, cumsum_getElem?]
  have hlen : 0 < (netpnlCol closes acts size comm amount).length := by
    rw [netpnlCol_length]
    have := List.length_pos.2 h1
    have := List.length_pos.2 h2
    omega
  rw [if_pos hlen]
  have h0 := netpnlCol_getElem0 closes acts size comm amount h1 h2
  cases hn : netpnlCol closes acts size comm amount with
  | nil => rw [hn] at h0; simp at h0
  | cons x xs =>
    rw [hn] at h0
    have hx : x = 0 := by
      have := h0
      simp at this
      exact this
    simp [hx]

theorem chain_head_le_getLast :
    ∀ (l : List Int) (x : Int), List.Chain' (· < ·) (x :: l) → x ≤ (x :: l).getLastD 0 := by
  intro l
  induction l with
  | nil => intro x _; simp
  | cons y t ih =>
    intro x h
    rw [List.chain'_cons] at h
    have h1 : ((x :: y :: t).getLastD 0) = ((y :: t).getLastD 0) := by
      rw [List.getLastD_cons, List.getLastD_cons, List.getLastD_cons]
    rw [h1]
    exact le_of_lt (lt_of_lt_of_le h.1 (ih y h.2))

theorem setCol_allEq (cols : List (String × Col)) (n : String) (v : Col) :
    AllEq (setCol cols n v) n v := by
  intro p hp hpn
  rw [setCol] at hp
  by_cases hany : (cols.any (fun p => decide (p.1 = n))) = true
  · rw [if_pos hany] at hp
    rcases List.mem_map.1 hp with ⟨q, hq, rfl⟩
    by_cases hq1 : q.1 = n
    · simp [hq1]
    · simp only [if_neg hq1] at hpn ⊢
      exact absurd hpn hq1
  · rw [if_neg hany] at hp
    rcases List.mem_append.1 hp with hq | hq
    · exfalso
      apply hany
      rw [List.any_eq_true]
      exact ⟨p, hq, by simp [hpn]⟩
    · simpa using hq

theorem setCol_preserves_allEq (cols : List (String × Col)) (n m : String) (v w : Col)
    (hmn : m ≠ n) (h : AllEq cols m w) : AllEq (setCol cols n v) m w := by
  intro p hp hpm
  rw [setCol] at hp
  by_cases hany : (cols.any (fun p => decide (p.1 = n))) = true
  · rw [if_pos hany] at hp
    rcases List.mem_map.1 hp with ⟨q, hq, rfl⟩
    by_cases hq1 : q.1 = n
    · simp only [if_pos hq1] at hpm ⊢
      exact absurd hpm (Ne.symm hmn)
    · simp only [if_neg hq1] at hpm ⊢
      exact h q hq hpm
  · rw [if_neg hany] at hp
    rcases List.mem_append.1 hp with hq | hq
    · exact h p hq hpm
    · simp only [List.mem_singleton] at hq
      subst hq
      exact absurd hpm (Ne.symm hmn)

theorem setCol_hasKey (cols : List (String × Col)) (n : String) (v : Col) :
    HasKey (setCol cols n v) n := by
  rw [setCol]
  by_cases hany : (cols.any (fun p => decide (p.1 = n))) = true
  · rw [if_pos hany]
    rcases List.any_eq_true.1 hany with ⟨q, hq, hq1⟩
    rw [decide_eq_true_eq] at hq1
    exact ⟨(n, v), List.mem_map.2 ⟨q, hq, by simp [hq1]⟩, rfl⟩
  · rw [if_neg hany]
    exact ⟨(n, v), List.mem_append.2 (Or.inr (by simp)), rfl⟩

theorem setCol_preserves_hasKey (cols : List (String × Col)) (n m : String) (v : Col)
    (h : HasKey cols m) : HasKey (setCol cols n v) m := by
  obtain ⟨q, hq, hq1⟩ := h
  rw [setCol]
  by_cases hany : (cols.any (fun p => decide (p.1 = n))) = true
  · rw [if_pos hany]
    by_cases hq2 : q.1 = n
    · refine ⟨(n, v), List.mem_map.2 ⟨q, hq, by simp [hq2]⟩, ?_⟩
      rw [← hq1, hq2]
    · exact ⟨q, List.mem_map.2 ⟨q, hq, by simp [hq2]⟩, hq1⟩
  · rw [if_neg hany]
    exact ⟨q, List.mem_append.2 (Or.inl hq), hq1⟩

theorem setCol_eq_of_allEq (cols : List (String × Col)) (n : String) (v : Col)
    (ha : AllEq cols n v) (hk : HasKey cols n) : setCol cols n v = cols := by
  rw [setCol, if_pos]
  · have hcg : ∀ p ∈ cols, (if p.1 = n then (n, v) else p) = p := by
      intro p hp
      by_cases h1 : p.1 = n
      · rw [if_pos h1, ← ha p hp h1]
      · rw [if_neg h1]
    calc cols.map (fun p => if p.1 = n then (n, v) else p)
        = cols.map id := List.map_congr_left (by simpa using hcg)
      _ = cols := List.map_id cols
  · obtain ⟨q, hq, hq1⟩ := hk
    rw [List.any_eq_true]
    exact ⟨q, hq, by simp [hq1]⟩

theorem applyWrites_preserves_allEq :
    ∀ (ws cols : List (String × Col)) (n : String) (v : Col),
      (∀ q ∈ ws, q.1 ≠ n) → AllEq cols n v → AllEq (applyWrites ws cols) n v := by
  intro ws
  induction ws with
  | nil => intro cols n v _ h; exact h
  | cons q ws ih =>
    intro cols n v hq h
    rw [applyWrites]
    exact ih _ n v (fun r hr => hq r (by simp [hr]))
      (setCol_preserves_allEq cols q.1 n q.2 v (Ne.symm (hq q (by simp))) h)

theorem applyWrites_preserves_hasKey :
    ∀ (ws cols : List (String × Col)) (m : String),
      HasKey cols m → HasKey (applyWrites ws cols) m := by
  intro ws
  induction ws with
  | nil => intro cols m h; exact h
  | cons q ws ih =>
    intro cols m h
    rw [applyWrites]
    exact ih _ m (setCol_preserves_hasKey cols q.1 m q.2 h)

theorem applyWrites_idem :
    ∀ (ws cols : List (String × Col)), ((ws.map Prod.fst).Nodup) →
      applyWrites ws (applyWrites ws cols) = applyWrites ws cols := by
  intro ws
  induction ws with
  | nil => intro cols _; rfl
  | cons q ws ih =>
    intro cols hnd
    simp only [List.map_cons, List.nodup_cons] at hnd
    obtain ⟨hq, hnd⟩ := hnd
    rw [applyWrites, applyWrites]
    have hkeys : ∀ r ∈ ws, r.1 ≠ q.1 := by
      intro r hr hco
      exact hq (hco ▸ List.mem_map_of_mem Prod.fst hr)
    have hAE : AllEq (applyWrites ws (setCol cols q.1 q.2)) q.1 q.2 :=
      applyWrites_preserves_allEq ws _ q.1 q.2 hkeys (setCol_allEq cols q.1 q.2)
    have hHK : HasKey (applyWrites ws (setCol cols q.1 q.2)) q.1 :=
      applyWrites_preserves_hasKey ws _ q.1 (setCol_hasKey cols q.1 q.2)
    rw [setCol_eq_of_allEq _ _ _ hAE hHK]
    exact ih _ hnd

theorem applyWrites_append :
    ∀ (xs ys cols : List (String × Col)),
      applyWrites (xs ++ ys) cols = applyWrites ys (applyWrites xs cols) := by
  intro xs
  induction xs with
  | nil => intro ys cols; rfl
  | cons x xs ih =>
    intro ys cols
    rw [List.cons_append, applyWrites, applyWrites, ih]

theorem find?_mapReplace_ne :
    ∀ (cols : List (String × Col)) (n m : String) (v : Col), m ≠ n →
      (cols.map (fun p => if p.1 = n then (n, v) else p)).find?
          (fun p => decide (p.1 = m)) =
        cols.find? (fun p => decide (p.1 = m)) := by
  intro cols
  induction cols with
  | nil => intro n m v _; rfl
  | cons q rest ih =>
    intro n m v hmn
    rw [List.map_cons]
    by_cases hq1 : q.1 = n
    · rw [if_pos hq1]
      rw [List.find?_cons_of_neg _ (by simp [Ne.symm hmn]),
        List.find?_cons_of_neg _ (by simp [hq1, Ne.symm hmn])]
      exact ih n m v hmn
    · rw [if_neg hq1]
      by_cases hqm : q.1 = m
      · rw [List.find?_cons_of_pos _ (by simp [hqm]),
          List.find?_cons_of_pos _ (by simp [hqm])]
      · rw [List.find?_cons_of_neg _ (by simp [hqm]),
          List.find?_cons_of_neg _ (by simp [hqm])]
        exact ih n m v hmn

theorem find?_setCol_self (cols : List (String × Col)) (n : String) (v : Col) :
    (setCol cols n v).find? (fun p => decide (p.1 = n)) = some (n, v) := by
  induction cols with
  | nil => simp [setCol]
  | cons q rest ih =>
    obtain ⟨k, w⟩ := q
    by_cases hk : k = n
    · rw [setCol, if_pos (by simp [hk])]
      rw [List.map_cons]
      simp only [if_pos hk]
      rw [List.find?_cons_of_pos _ (by simp)]
    · rw [setCol]
      by_cases hr : (rest.any (fun p => decide (p.1 = n))) = true
      · rw [if_pos (by simp [List.any_cons, hk, hr])]
        rw [List.map_cons]
        simp only [if_neg hk]
        rw [List.find?_cons_of_neg _ (by simp [hk])]
        have hres := ih
        rw [setCol, if_pos hr] at hres
        exact hres
      · rw [if_neg (by simp [List.any_cons, hk, hr])]
        rw [List.cons_append, List.find?_cons_of_neg _ (by simp [hk])]
        have hres := ih
        rw [setCol, if_neg hr] at hres
        exact hres

theorem find?_setCol_ne (cols : List (String × Col)) (n m : String) (v : Col)
    (hmn : m ≠ n) :
    (setCol cols n v).find? (fun p => decide (p.1 = m)) =
      cols.find? (fun p => decide (p.1 = m)) := by
  rw [setCol]
  by_cases hany : (cols.any (fun p => decide (p.1 = n))) = true
  · rw [if_pos hany]
    exact find?_mapReplace_ne cols n m v hmn
  · rw [if_neg hany, List.find?_append]
    rw [show ([(n, v)].find? (fun p => decide (p.1 = m))) = none from by
      simp [Ne.symm hmn]]
    rw [Option.or_none]

theorem find?_applyWrites_ne :
    ∀ (ws cols : List (String × Col)) (m : String),
      (∀ q ∈ ws, q.1 ≠ m) →
      (applyWrites ws cols).find? (fun p => decide (p.1 = m)) =
        cols.find? (fun p => decide (p.1 = m)) := by
  intro ws
  induction ws with
  | nil => intro cols m _; rfl
  | cons q ws ih =>
    intro cols m hq
    rw [applyWrites, ih _ m (fun r hr => hq r (by simp [hr])),
      find?_setCol_ne cols q.1 m q.2 (Ne.symm (hq q (by simp)))]

theorem brokerWrites_keys (L : Ledger) (inds : List (String × List (Option Rat))) :
    (brokerWrites L inds).map Prod.fst =
      "change" :: "signal" :: (inds.map Prod.fst ++
        ["pos", "trading_pnl", "fee", "netpnl", "cumpnl", "capital", "outofmoney"]) := by
  simp [brokerWrites]

theorem brokerWrites_nodup (L : Ledger) (inds : List (String × List (Option Rat)))
    (hn : ∀ p ∈ inds, p.1 ∉ reservedCols)
    (hdup : (inds.map Prod.fst).Nodup) :
    ((brokerWrites L inds).map Prod.fst).Nodup := by
  rw [brokerWrites_keys, List.nodup_cons, List.nodup_cons]
  refine ⟨?_, ?_, ?_⟩
  · simp only [List.mem_cons, List.mem_append]
    rintro (h | h | h)
    · exact absurd h (by decide)
    · rcases List.mem_map.1 h with ⟨p, hp, hp1⟩
      exact (hn p hp) (by rw [hp1]; decide)
    · exact absurd h (by decide)
  · simp only [List.mem_append]
    rintro (h | h)
    · rcases List.mem_map.1 h with ⟨p, hp, hp1⟩
      exact (hn p hp) (by rw [hp1]; decide)
    · exact absurd h (by decide)
  · rw [List.nodup_append]
    refine ⟨hdup, by decide, ?_⟩
    intro x hx hx7
    rcases List.mem_map.1 hx with ⟨p, hp, rfl⟩
    apply hn p hp
    simp only [List.mem_cons, List.mem_singleton, List.not_mem_nil, or_false] at hx7
    rcases hx7 with h | h | h | h | h | h | h <;> rw [h] <;> decide

/-! ## Claim theorems -/

/-- C3: for every valid table of length at least two and every strategy, the
signal engine's action sequence has exactly the table's length, and its
entries at indices 0 and 1 are always undefined (`None`). -/
theorem sig_length_spec (strat : Strategy) (bars : List Bar) (h : 2 ≤ bars.length) :
    (sig strat bars).length = bars.length ∧
    (sig strat bars)[0]? = some none ∧ (sig strat bars)[1]? = some none := by
  refine ⟨?_, by simp [sig], by simp [sig]⟩
  simp only [sig, List.length_append, List.length_map, List.length_range',
    List.length_cons, List.length_nil]
  omega

/-- C3 witness: a concrete four-bar table and strategy. -/
theorem sig_length_spec_inst :
    (sig (fun l => some ((l.length : Int) : Rat))
        [flatBar 0 1, flatBar 1 2, flatBar 2 3, flatBar 3 4]).length = 4 ∧
    (sig (fun l => some ((l.length : Int) : Rat))
        [flatBar 0 1, flatBar 1 2, flatBar 2 3, flatBar 3 4])[0]? = some none ∧
    (sig (fun l => some ((l.length : Int) : Rat))
        [flatBar 0 1, flatBar 1 2, flatBar 2 3, flatBar 3 4])[1]? = some none :=
  sig_length_spec (fun l => some ((l.length : Int) : Rat))
    [flatBar 0 1, flatBar 1 2, flatBar 2 3, flatBar 3 4] (by decide)

/-- C2 counterexample: on series with fewer than two observations,
`crossover` does not return a falsy value — evaluating `series1[-2]` raises
`IndexError`, so nothing is returned at all. -/
theorem crossover_short_series_raises :
    crossover [(1 : Rat)] [(2 : Rat)] = .error () ∧
    crossover [(1 : Rat)] [(2 : Rat)] ≠ .ok (some false) ∧
    crossover [(1 : Rat)] [(2 : Rat)] ≠ .ok none := by
  decide

/-- C2 (amended): for series with at least two observations each,
`crossover(A, B)` is `True` iff `A[-2] < B[-2]` and `A[-1] > B[-1]`, it
returns `None` (falsy, but not the boolean `False`) on ties and whenever it
does not signal, and swapping the arguments never yields `True` both ways;
when either series has fewer than two observations it raises `IndexError`
instead of returning. -/
theorem crossover_spec (s1 s2 : List Rat) :
    (2 ≤ s1.length → 2 ≤ s2.length →
      ((crossover s1 s2 = .ok (some true) ↔
          s1.getD (s1.length - 2) 0 < s2.getD (s2.length - 2) 0 ∧
          s2.getD (s2.length - 1) 0 < s1.getD (s1.length - 1) 0) ∧
        (crossover s1 s2 ≠ .ok (some true) → crossover s1 s2 = .ok none) ∧
        ¬(crossover s1 s2 = .ok (some true) ∧ crossover s2 s1 = .ok (some true)))) ∧
    (s1.length < 2 ∨ s2.length < 2 → crossover s1 s2 = .error ()) := by
  constructor
  · intro h1 h2
    have e1 : negIdx s1 2 = .ok (s1.getD (s1.length - 2) 0) := by
      rw [negIdx, if_neg (by omega)]
    have e2 : negIdx s2 2 = .ok (s2.getD (s2.length - 2) 0) := by
      rw [negIdx, if_neg (by omega)]
    have e3 : negIdx s1 1 = .ok (s1.getD (s1.length - 1) 0) := by
      rw [negIdx, if_neg (by omega)]
    have e4 : negIdx s2 1 = .ok (s2.getD (s2.length - 1) 0) := by
      rw [negIdx, if_neg (by omega)]
    have e5 : negIdx s2 2 = .ok (s2.getD (s2.length - 2) 0) := e2
    have hc : crossover s1 s2 =
        if s1.getD (s1.length - 2) 0 < s2.getD (s2.length - 2) 0 then
          (if s2.getD (s2.length - 1) 0 < s1.getD (s1.length - 1) 0 then
            .ok (some true) else .ok none)
        else .ok none := by
      rw [crossover, e1, e2, e3, e4]
    have hc' : crossover s2 s1 =
        if s2.getD (s2.length - 2) 0 < s1.getD (s1.length - 2) 0 then
          (if s1.getD (s1.length - 1) 0 < s2.getD (s2.length - 1) 0 then
            .ok (some true) else .ok none)
        else .ok none := by
      rw [crossover, e2, e1, e4, e3]
    refine ⟨?_, ?_, ?_⟩
    · rw [hc]
      by_cases c1 : s1.getD (s1.length - 2) 0 < s2.getD (s2.length - 2) 0
      · by_cases c2 : s2.getD (s2.length - 1) 0 < s1.getD (s1.length - 1) 0
        · rw [if_pos c1, if_pos c2]
          exact iff_of_true rfl ⟨c1, c2⟩
        · rw [if_pos c1, if_neg c2]
          exact iff_of_false (by simp) (fun hh => c2 hh.2)
      · rw [if_neg c1]
        exact iff_of_false (by simp) (fun hh => c1 hh.1)
    · rw [hc]
      by_cases c1 : s1.getD (s1.length - 2) 0 < s2.getD (s2.length - 2) 0
      · by_cases c2 : s2.getD (s2.length - 1) 0 < s1.getD (s1.length - 1) 0
        · rw [if_pos c1, if_pos c2]
          intro hne; exact absurd rfl hne
        · rw [if_pos c1, if_neg c2]
          intro _; rfl
      · rw [if_neg c1]
        intro _; rfl
    · rw [hc, hc']
      rintro ⟨ha, hb⟩
      by_cases c1 : s1.getD (s1.length - 2) 0 < s2.getD (s2.length - 2) 0
      · rw [if_neg (lt_asymm c1)] at hb
        simp at hb
      · rw [if_neg c1] at ha
        simp at ha
  · intro h
    rcases h with h | h
    · have e1 : negIdx s1 2 = .error () := by rw [negIdx, if_pos (by omega)]
      rw [crossover, e1]
    · have e2 : negIdx s2 2 = .error () := by rw [negIdx, if_pos (by omega)]
      rw [crossover, e2]
      cases hh : negIdx s1 2 <;> rfl

/-- C2 witness: a concrete crossing pair. -/
theorem crossover_spec_inst :
    (crossover [(1 : Rat), 3] [(2 : Rat), 2] = .ok (some true) ↔
      (1 : Rat) < 2 ∧ (2 : Rat) < 3) ∧
    (crossover [(1 : Rat), 3] [(2 : Rat), 2] ≠ .ok (some true) →
      crossover [(1 : Rat), 3] [(2 : Rat), 2] = .ok none) ∧
    ¬(crossover [(1 : Rat), 3] [(2 : Rat), 2] = .ok (some true) ∧
      crossover [(2 : Rat), 2] [(1 : Rat), 3] = .ok (some true)) :=
  (crossover_spec [(1 : Rat), 3] [(2 : Rat), 2]).1 (by decide) (by decide)

/-- C7: a successfully computed indicator whose orientation-normalized result
has final dimension different from the current table length `n` (for example
`n - 1`) makes the registry raise the shape `ValueError`, whose payload
reports both the expected length (the table's) and the returned value's
shape; since the exception fires before the append on line 128, the
indicator is not recorded. -/
theorem ind_shape_error (n nOrig : Nat) (name : String) (xs : List Rat)
    (reg : List (String × PyVal)) (h : xs.length ≠ n) :
    ind n nOrig name (.ok (.arr1 xs)) reg = .error (.shape n name [xs.length]) := by
  simp [ind, toArray, isArr, argmaxIsZero, shapeOf, flipT, h]

/-- C7 witness: a length-3 indicator against a length-4 table. -/
theorem ind_shape_error_inst :
    ind 4 4 "sma" (.ok (.arr1 [1, 2, 3])) [] = .error (.shape 4 "sma" [3]) :=
  ind_shape_error 4 4 "sma" [1, 2, 3] [] (by decide)

/-- C8: the reported max drawdown is
`-max(1 - capital / running_max(capital)) * 100`; it is exactly 0 for every
monotonically non-decreasing capital series, it is standardized to 0 when
the drawdown series contains only undefined entries, and on
`[100, 90, 80, 95]` it is `-20`. -/
theorem max_drawdown_spec :
    (∀ capital : List Rat,
        maxDrawdownPct capital =
          -((listMaxO (List.zipWith ddEntry capital (runningMax capital))).getD 0) * 100) ∧
    (∀ capital : List Rat, List.Chain' (· ≤ ·) capital → maxDrawdownPct capital = 0) ∧
    (∀ capital : List Rat,
        (∀ x ∈ List.zipWith ddEntry capital (runningMax capital), x = none) →
        maxDrawdownPct capital = 0) ∧
    maxDrawdownPct [100, 90, 80, 95] = -20 := by
  refine ⟨fun capital => rfl, ?_, ?_,
    by norm_num [maxDrawdownPct, runningMax, runMaxAux, ddEntry, listMaxO,
      maxStepO, max_def]⟩
  · intro capital h
    rw [maxDrawdownPct, runningMax_of_chain capital h, List.zipWith_same]
    have hall : ∀ x ∈ capital.map (fun c => ddEntry c c), x = none ∨ x = some 0 := by
      intro x hx
      rcases List.mem_map.1 hx with ⟨c, _, rfl⟩
      by_cases hc : c = 0
      · left; simp [ddEntry, hc]
      · right; simp [ddEntry, hc, div_self hc]
    rcases foldl_maxStepO_zero _ none (Or.inl rfl) hall with h0 | h0 <;>
      simp [listMaxO, h0]
  · intro capital h
    rw [maxDrawdownPct]
    rw [show listMaxO (List.zipWith ddEntry capital (runningMax capital)) = none from
      foldl_maxStepO_none _ h]
    simp

/-- C8 witness: a monotonically increasing capital series has drawdown 0. -/
theorem max_drawdown_spec_inst : maxDrawdownPct [1, 2, 3] = 0 :=
  max_drawdown_spec.2.1 [1, 2, 3] (by norm_num [List.chain'_cons])

/-- C4: the broker's position at bar `t` is the last non-undefined action at
an index strictly before `t` (forward-fill of the signal, shifted by one
bar), defaulting to 0 at every bar at or before the first defined action;
on closes `[100, 100, 105, 110]` with an enter-long action at bar 2,
`size = 1`, `comm = 0`, positions are `[0,0,0,1]`, net P&L `[0,0,0,5]`, and
capital `[cash, cash, cash, cash + 5]`. -/
theorem position_spec (acts : List Action) (t : Nat) (h : t < acts.length) (cash : Rat) :
    (posList acts)[t]? = some (((acts.take t).filterMap id).getLastD 0) ∧
    ((∀ x ∈ acts.take t, x = none) → (posList acts)[t]? = some 0) ∧
    (settle [100, 100, 105, 110] [none, none, some 1, none] cash 1 0 1).pos = [0, 0, 0, 1] ∧
    (settle [100, 100, 105, 110] [none, none, some 1, none] cash 1 0 1).netpnl = [0, 0, 0, 5] ∧
    (settle [100, 100, 105, 110] [none, none, some 1, none] cash 1 0 1).capital =
      [cash, cash, cash, cash + 5] := by
  have hmain : (posList acts)[t]? = some (((acts.take t).filterMap id).getLastD 0) := by
    rw [posList_getElem?, if_pos h, foldl_or_getLast, Option.or_none,
      List.getLastD_eq_getLast?]
  refine ⟨hmain, ?_, ?_, ?_, ?_⟩
  · intro hall
    rw [hmain]
    have hnil : (acts.take t).filterMap id = [] :=
      List.filterMap_eq_nil_iff.2 (fun a ha => hall a ha)
    rw [hnil]
    rfl
  · norm_num [settle, posList, ffill, shiftCol, fillna0]
  · norm_num [settle, netpnlCol, tradingPnlCol, feeCol, posList, ffill, shiftCol,
      fillna0, diffCol, feeFactor, shiftR]
  · norm_num [settle, capitalCol, cumpnlCol, netpnlCol, tradingPnlCol, feeCol,
      posList, ffill, shiftCol, fillna0, diffCol, feeFactor, shiftR, cumsum]
    ring

/-- C4 witness: the characterization evaluated at a concrete action list. -/
theorem position_spec_inst :
    (posList [none, none, some 1, none])[3]? =
      some ((([none, none, some 1, none].take 3).filterMap id).getLastD 0) ∧
    ((∀ x ∈ [none, none, some (1 : Rat), none].take 3, x = none) →
      (posList [none, none, some 1, none])[3]? = some 0) ∧
    (settle [100, 100, 105, 110] [none, none, some 1, none] 7 1 0 1).pos = [0, 0, 0, 1] ∧
    (settle [100, 100, 105, 110] [none, none, some 1, none] 7 1 0 1).netpnl = [0, 0, 0, 5] ∧
    (settle [100, 100, 105, 110] [none, none, some 1, none] 7 1 0 1).capital =
      [7, 7, 7, (7 : Rat) + 5] :=
  position_spec [none, none, some 1, none] 3 (by decide) 7

/-- C5: with `comm = 0` the fee column is exactly 0 at every bar, and the
capital at bar `t` is the starting cash plus the running sum of
`price_change * position * size` over bars `0..t`, an undefined price change
counting as 0. -/
theorem zero_commission_spec (closes : List Rat) (acts : List Action)
    (cash size amount : Rat) (t : Nat)
    (h : t < (settle closes acts cash size 0 amount).capital.length) :
    (∀ f ∈ (settle closes acts cash size 0 amount).fee, f = 0) ∧
    (settle closes acts cash size 0 amount).capital[t]? =
      some (cash +
        ((List.zipWith (fun ch p => ch.getD 0 * p * size)
            (diffCol closes) (posList acts)).take (t + 1)).sum) := by
  constructor
  · intro f hf
    exact zipWith_all_zero _ (fun a b => by ring) closes (feeFactor (posList acts)) f hf
  · show (capitalCol closes acts cash size 0 amount)[t]? = _
    have hlen : (settle closes acts cash size 0 amount).capital.length
        = (List.zipWith (fun ch p => ch.getD 0 * p * size)
            (diffCol closes) (posList acts)).length := by
      show (capitalCol closes acts cash size 0 amount).length = _
      rw [capitalCol, List.length_map, cumpnlCol, cumsum_length, netpnlCol_zero_comm]
    rw [capitalCol, List.getElem?_map, cumpnlCol, cumsum_getElem?, netpnlCol_zero_comm]
    rw [if_pos (by rw [← hlen]; exact h)]
    simp only [Option.map_some']
    congr 1
    ring

/-- C1: no-lookahead causality.  The walk-forward engine computes the action
at bar `i` from the causal prefix `[0, i]` only, so whenever two tables agree
on bars `[0, t]`, the recorded Action and the derived Position agree at every
index below `t` — mutating bar data at indices above `t` never changes them. -/
theorem sig_pos_causal (strat : Strategy) (A B : List Bar) (t : Nat)
    (h : A.take (t + 1) = B.take (t + 1)) :
    ∀ j, j < t →
      (sig strat A)[j]? = (sig strat B)[j]? ∧
      (posList (sig strat A))[j]? = (posList (sig strat B))[j]? := by
  have hmin : min (t + 1) A.length = min (t + 1) B.length := by
    have hc := congrArg List.length h
    simpa [List.length_take] using hc
  intro j hj
  refine ⟨sig_agree strat A B t h j (le_of_lt hj), ?_⟩
  rw [posList_getElem?, posList_getElem?]
  have hiff : j < (sig strat A).length ↔ j < (sig strat B).length := by
    rw [sig_length, sig_length]
    omega
  by_cases hjA : j < (sig strat A).length
  · rw [if_pos hjA, if_pos (hiff.1 hjA)]
    have htake : (sig strat A).take j = (sig strat B).take j := by
      apply List.ext_getElem?
      intro i
      rw [List.getElem?_take, List.getElem?_take]
      by_cases hij : i < j
      · rw [if_pos hij, if_pos hij]
        exact sig_agree strat A B t h i (by omega)
      · rw [if_neg hij, if_neg hij]
    rw [htake]
  · rw [if_neg hjA, if_neg (fun hc => hjA (hiff.2 hc))]

/-- C1 witness: two four-bar tables that differ only at bar 3 agree, at
index 1, on both Action and Position. -/
theorem sig_pos_causal_inst :
    (sig (fun l => some ((l.length : Rat)))
        [flatBar 0 1, flatBar 1 2, flatBar 2 3, flatBar 3 4])[1]? =
      (sig (fun l => some ((l.length : Rat)))
        [flatBar 0 1, flatBar 1 2, flatBar 2 3, flatBar 3 99])[1]? ∧
    (posList (sig (fun l => some ((l.length : Rat)))
        [flatBar 0 1, flatBar 1 2, flatBar 2 3, flatBar 3 4]))[1]? =
      (posList (sig (fun l => some ((l.length : Rat)))
        [flatBar 0 1, flatBar 1 2, flatBar 2 3, flatBar 3 99]))[1]? :=
  sig_pos_causal (fun l => some ((l.length : Rat)))
    [flatBar 0 1, flatBar 1 2, flatBar 2 3, flatBar 3 4]
    [flatBar 0 1, flatBar 1 2, flatBar 2 3, flatBar 3 99] 2 (by decide) 1 (by decide)

/-- C10 counterexample: on a valid one-bar table `run` produces no Ledger at
all — `_sig` always returns at least `[None, None]`, so assigning the signal
column onto the one-row frame raises a pandas length-mismatch `ValueError`. -/
theorem run_one_bar_fails :
    runM (fun _ => none) [flatBar 0 1] 50000 100 0 1 = .error .lengthMismatch := by
  decide

/-- C10 (amended): for every valid table with at least two bars (whose
strictly ascending timestamps span a nonzero number of days, as the
exposure-time computation divides by that span) and all numeric parameters,
`run` succeeds and its Ledger has net P&L 0 at bar 0 — the first price change
is undefined and treated as 0, and no fee is charged at bar 0 — hence
`capital[0] = cash` and the reported total return percentage is
`(final capital - cash) / cash * 100`. -/
theorem run_initial_capital (strat : Strategy) (bars : List Bar)
    (cash size comm amount : Rat) (h2 : 2 ≤ bars.length)
    (hmono : List.Chain' (· < ·) (bars.map Bar.time)) :
    isOkE (runM strat bars cash size comm amount) = true ∧
      (ledgerOf (runM strat bars cash size comm amount)).netpnl[0]? = some 0 ∧
      (ledgerOf (runM strat bars cash size comm amount)).capital[0]? = some cash ∧
      (reportOf (runM strat bars cash size comm amount)).returnPct =
        ((reportOf (runM strat bars cash size comm amount)).capitalFinal - cash) /
          cash * 100 := by
  have hne : bars ≠ [] := by
    intro hnil; rw [hnil] at h2; simp at h2
  obtain ⟨b0, bars1, rfl⟩ := List.exists_cons_of_ne_nil hne
  have hne1 : bars1 ≠ [] := by
    intro hnil; rw [hnil] at h2; simp at h2
  obtain ⟨b1, rest, rfl⟩ := List.exists_cons_of_ne_nil hne1
  have hg1 : ¬ (sig strat (b0 :: b1 :: rest)).length ≠ (b0 :: b1 :: rest).length := by
    rw [sig_length]
    simp only [List.length_cons]
    omega
  have hdur : ¬ (((b0 :: b1 :: rest).map Bar.time).getLastD 0
      - ((b0 :: b1 :: rest).map Bar.time).headD 0) = 0 := by
    simp only [List.map_cons, List.headD_cons] at hmono ⊢
    rw [List.chain'_cons] at hmono
    have hle : b1.time ≤ (rest.map Bar.time).getLastD b1.time := by
      have hc := chain_head_le_getLast (rest.map Bar.time) b1.time hmono.2
      rwa [List.getLastD_cons] at hc
    rw [List.getLastD_cons, List.getLastD_cons]
    have hlt := hmono.1
    omega
  rw [runM, if_neg hg1, if_neg hdur]
  refine ⟨rfl, ?_, ?_, ?_⟩
  · show (netpnlCol ((b0 :: b1 :: rest).map Bar.close) (sig strat (b0 :: b1 :: rest))
        size comm amount)[0]? = some 0
    exact netpnlCol_getElem0 _ _ _ _ _ (by simp) (by simp [sig])
  · show (capitalCol ((b0 :: b1 :: rest).map Bar.close) (sig strat (b0 :: b1 :: rest))
        cash size comm amount)[0]? = some cash
    exact capitalCol_getElem0 _ _ _ _ _ _ (by simp) (by simp [sig])
  · have hcap0 : (capitalCol ((b0 :: b1 :: rest).map Bar.close)
        (sig strat (b0 :: b1 :: rest)) cash size comm amount)[0]? = some cash :=
      capitalCol_getElem0 _ _ _ _ _ _ (by simp) (by simp [sig])
    have hhead : (capitalCol ((b0 :: b1 :: rest).map Bar.close)
        (sig strat (b0 :: b1 :: rest)) cash size comm amount).headD 0 = cash := by
      rw [List.headD_eq_head?, List.head?_eq_getElem?, hcap0]
      rfl
    show ((capitalCol ((b0 :: b1 :: rest).map Bar.close) (sig strat (b0 :: b1 :: rest))
            cash size comm amount).getLastD 0 -
          (capitalCol ((b0 :: b1 :: rest).map Bar.close) (sig strat (b0 :: b1 :: rest))
            cash size comm amount).headD 0) /
        (capitalCol ((b0 :: b1 :: rest).map Bar.close) (sig strat (b0 :: b1 :: rest))
            cash size comm amount).headD 0 * 100 =
      ((capitalCol ((b0 :: b1 :: rest).map Bar.close) (sig strat (b0 :: b1 :: rest))
            cash size comm amount).getLastD 0 - cash) / cash * 100
    rw [hhead]

/-- C10 witness: a concrete two-bar, two-day table. -/
theorem run_initial_capital_inst :
    isOkE (runM (fun _ => none) [flatBar 0 1, flatBar 1 2] 50000 100 0 1) = true ∧
      (ledgerOf (runM (fun _ => none)
        [flatBar 0 1, flatBar 1 2] 50000 100 0 1)).netpnl[0]? = some 0 ∧
      (ledgerOf (runM (fun _ => none)
        [flatBar 0 1, flatBar 1 2] 50000 100 0 1)).capital[0]? = some 50000 ∧
      (reportOf (runM (fun _ => none)
        [flatBar 0 1, flatBar 1 2] 50000 100 0 1)).returnPct =
        ((reportOf (runM (fun _ => none)
          [flatBar 0 1, flatBar 1 2] 50000 100 0 1)).capitalFinal - 50000) /
          50000 * 100 :=
  run_initial_capital (fun _ => none) [flatBar 0 1, flatBar 1 2] 50000 100 0 1
    (by decide) (by norm_num [flatBar, List.chain'_cons])

/-- C9 counterexample: `run` does not leave the strategy's table unchanged.
`BacktestRun` aliases the strategy's frame and `_broker` assigns signal and
ledger columns onto it in place, so the shared object after `_broker` differs
from the table the strategy was constructed with. -/
theorem broker_mutates_table :
    brokerStep (fun _ => none) [] 0 1 0 1 demoFrame ≠ .ok demoFrame := by
  intro hEq
  have h1 : brokerStep (fun _ => none) [] 0 1 0 1 demoFrame = .ok demoSettled := rfl
  rw [h1] at hEq
  injection hEq with hEq
  have h2 := congrArg (fun fr => (getCol fr "signal").isSome) hEq
  exact absurd h2 (by decide)

/-- C9 (amended): `_broker` mutates the working frame shared with the
strategy in place, appending the signal and ledger columns to it; however the
bar data itself (the open/high/low/close/volume values and the index) is
never modified.  The hypothesis keeps indicator display names away from the
engine's own column names, which the source would otherwise overwrite
mid-computation. -/
theorem broker_preserves_bars (strat : Strategy)
    (inds : List (String × List (Option Rat))) (cash size comm amount : Rat)
    (df f1 : Frame)
    (hn : ∀ p ∈ inds, p.1 ∉ reservedCols)
    (h : brokerStep strat inds cash size comm amount df = .ok f1) :
    f1.bars = df.bars ∧
    getCol f1 "signal" = some (.nums (sig strat df.bars)) ∧
    getCol f1 "pos" = some (.nums ((posList (sig strat df.bars)).map some)) := by
  rw [brokerStep] at h
  by_cases hg : (sig strat df.bars).length ≠ df.bars.length
  · rw [if_pos hg] at h
    exact absurd h (by simp)
  · rw [if_neg hg] at h
    injection h with h
    subst h
    have hsig : ∀ q ∈ inds.map (fun p => (p.1, Col.nums p.2)), q.1 ≠ "signal" := by
      intro q hq
      rcases List.mem_map.1 hq with ⟨p, hp, rfl⟩
      intro hco
      exact (hn p hp) (by rw [show p.1 = "signal" from hco]; decide)
    refine ⟨rfl, ?_, ?_⟩
    · rw [getCol]
      dsimp only
      rw [brokerWrites, applyWrites_append, applyWrites_append]
      simp only [applyWrites]
      rw [find?_setCol_ne _ _ _ _ (by decide), find?_setCol_ne _ _ _ _ (by decide),
        find?_setCol_ne _ _ _ _ (by decide), find?_setCol_ne _ _ _ _ (by decide),
        find?_setCol_ne _ _ _ _ (by decide), find?_setCol_ne _ _ _ _ (by decide),
        find?_setCol_ne _ _ _ _ (by decide),
        find?_applyWrites_ne _ _ _ hsig, find?_setCol_self]
      rfl
    · rw [getCol]
      dsimp only
      rw [brokerWrites, applyWrites_append, applyWrites_append]
      simp only [applyWrites]
      rw [find?_setCol_ne _ _ _ _ (by decide), find?_setCol_ne _ _ _ _ (by decide),
        find?_setCol_ne _ _ _ _ (by decide), find?_setCol_ne _ _ _ _ (by decide),
        find?_setCol_ne _ _ _ _ (by decide), find?_setCol_ne _ _ _ _ (by decide),
        find?_setCol_self]
      rfl

/-- C9 amended-claim witness: a concrete two-bar frame. -/
theorem broker_preserves_bars_inst :
    demoSettled.bars = demoFrame.bars ∧
    getCol demoSettled "signal" = some (.nums (sig (fun _ => none) demoFrame.bars)) ∧
    getCol demoSettled "pos" =
      some (.nums ((posList (sig (fun _ => none) demoFrame.bars)).map some)) :=
  broker_preserves_bars (fun _ => none) [] 0 1 0 1 demoFrame demoSettled
    (by simp) rfl

/-- C6: idempotence of settlement.  `_broker` recomputes every ledger column
from the bar data and the strategy alone and overwrites the columns it wrote
before, so settling again on the settled frame reproduces the identical
frame — in particular every ledger column is equal across the two runs.  The
hypotheses require the recorded indicator display names to be distinct and
disjoint from the engine's own column names. -/
theorem settle_idempotent (strat : Strategy)
    (inds : List (String × List (Option Rat))) (cash size comm amount : Rat)
    (df d : Frame)
    (hn : ∀ p ∈ inds, p.1 ∉ reservedCols)
    (hdup : (inds.map Prod.fst).Nodup)
    (h : brokerStep strat inds cash size comm amount df = .ok d) :
    brokerStep strat inds cash size comm amount d = .ok d := by
  rw [brokerStep] at h
  by_cases hg : (sig strat df.bars).length ≠ df.bars.length
  · rw [if_pos hg] at h
    exact absurd h (by simp)
  · rw [if_neg hg] at h
    injection h with h
    subst h
    rw [brokerStep]
    dsimp only
    rw [if_neg hg]
    congr 2
    exact applyWrites_idem _ _ (brokerWrites_nodup _ inds hn hdup)

/-- C6 witness: a concrete two-bar frame settled twice. -/
theorem settle_idempotent_inst :
    brokerStep (fun _ => none) [] 0 1 0 1 demoSettled = .ok demoSettled :=
  settle_idempotent (fun _ => none) [] 0 1 0 1 demoFrame demoSettled
    (by simp) (by simp) rfl

/-- C5 witness: the two-bar-flat-then-long example with `cash = 7`. -/
theorem zero_commission_spec_inst :
    (∀ f ∈ (settle [100, 100, 105, 110] [none, none, some 1, none] 7 1 0 1).fee, f = 0) ∧
    (settle [100, 100, 105, 110] [none, none, some 1, none] 7 1 0 1).capital[3]? =
      some (7 +
        ((List.zipWith (fun ch p => ch.getD 0 * p * 1)
            (diffCol [100, 100, 105, 110]) (posList [none, none, some 1, none])).take
          4).sum) :=
  zero_commission_spec [100, 100, 105, 110] [none, none, some 1, none] 7 1 1 3
    (by decide)

end TestingView
